import Mathlib

/-!
Verification of the rate-limiting library (implementations/typescript).

The algorithm classes of rate-limiter.ts are shallowly embedded here:
each limiter's instance fields become a structure, each `allowRequest`
(and `release`, `reset`, observability accessor) becomes a pure function
from the state and the current clock reading `now` (the TypeScript code
reads `Date.now()`, an integer count of milliseconds, so `now : ℤ`).
Fractional quantities (token counts, rates, seconds-valued result fields)
are rationals, mirroring the exact values of the source's arithmetic.
-/

/-- Result of a rate limit check (interface RateLimitResult). -/
structure Decision where
  allowed : Bool
  limit : ℚ
  remaining : ℚ
  resetAt : ℚ
  retryAfter : Option ℚ
  deriving DecidableEq, Repr

/-! ### Token Bucket (class TokenBucketLimiter) -/

structure TBState where
  capacity : ℚ
  refillRate : ℚ
  tokens : ℚ
  lastRefill : ℤ
  deriving DecidableEq, Repr

/-- Constructor: full bucket, lastRefill at construction time. -/
def TBState.init (capacity refillRate : ℚ) (now : ℤ) : TBState :=
  ⟨capacity, refillRate, capacity, now⟩

/-- private refill(): add elapsed-seconds * refillRate, capped at capacity. -/
def tbRefill (s : TBState) (now : ℤ) : TBState :=
  let elapsed : ℚ := ((now : ℚ) - (s.lastRefill : ℚ)) / 1000
  let tokensToAdd := elapsed * s.refillRate
  { s with tokens := min s.capacity (s.tokens + tokensToAdd), lastRefill := now }

/-- allowRequest(tokens): refill, then admit iff enough tokens remain. -/
def tbStep (s : TBState) (now : ℤ) (cost : ℕ) : TBState × Decision :=
  let s1 := tbRefill s now
  if (cost : ℚ) ≤ s1.tokens then
    let s2 := { s1 with tokens := s1.tokens - (cost : ℚ) }
    (s2, { allowed := true, limit := s.capacity,
           remaining := (⌊s2.tokens⌋ : ℚ),
           resetAt := (now : ℚ) + (s.capacity - s2.tokens) / s.refillRate * 1000,
           retryAfter := none })
  else
    let tokensNeeded := (cost : ℚ) - s1.tokens
    let retryAfterMs := tokensNeeded / s.refillRate * 1000
    (s1, { allowed := false, limit := s.capacity, remaining := 0,
           resetAt := (now : ℚ) + retryAfterMs,
           retryAfter := some (retryAfterMs / 1000) })

/-- reset(): restore full capacity. -/
def tbReset (s : TBState) (now : ℤ) : TBState :=
  { s with tokens := s.capacity, lastRefill := now }

/-- getTokens(): refills, then reads the token count (returns the new state
the mutation leaves behind together with the value read). -/
def tbGetTokens (s : TBState) (now : ℤ) : TBState × ℚ :=
  let s1 := tbRefill s now
  (s1, s1.tokens)

/-! ### Leaky Bucket (class LeakyBucketLimiter) -/

structure LBState where
  capacity : ℕ
  leakRate : ℚ
  queue : List ℤ
  lastLeak : ℤ
  deriving DecidableEq, Repr

def LBState.init (capacity : ℕ) (leakRate : ℚ) (now : ℤ) : LBState :=
  ⟨capacity, leakRate, [], now⟩

/-- private leak(): drop floor(elapsed-seconds * leakRate) entries from the
front of the queue (the source's loop runs min(requestsToLeak, length)
times, and a negative count runs it zero times). -/
def lbLeak (s : LBState) (now : ℤ) : LBState :=
  let elapsed : ℚ := ((now : ℚ) - (s.lastLeak : ℚ)) / 1000
  let requestsToLeak : ℤ := ⌊elapsed * s.leakRate⌋
  { s with queue := s.queue.drop requestsToLeak.toNat, lastLeak := now }

/-- allowRequest(tokens): leak, then admit iff the queue has room. -/
def lbStep (s : LBState) (now : ℤ) (cost : ℕ) : LBState × Decision :=
  let s1 := lbLeak s now
  if s1.queue.length + cost ≤ s.capacity then
    let s2 := { s1 with queue := s1.queue ++ List.replicate cost now }
    (s2, { allowed := true, limit := (s.capacity : ℚ),
           remaining := (s.capacity : ℚ) - (s2.queue.length : ℚ),
           resetAt := (now : ℚ) + (s2.queue.length : ℚ) / s.leakRate * 1000,
           retryAfter := none })
  else
    let retryAfterMs :=
      ((s1.queue.length : ℚ) - (s.capacity : ℚ) + (cost : ℚ)) / s.leakRate * 1000
    (s1, { allowed := false, limit := (s.capacity : ℚ), remaining := 0,
           resetAt := (now : ℚ) + retryAfterMs,
           retryAfter := some (retryAfterMs / 1000) })

def lbReset (s : LBState) (now : ℤ) : LBState :=
  { s with queue := [], lastLeak := now }

/-- getQueueLength(): leaks, then reads the queue length. -/
def lbGetQueueLength (s : LBState) (now : ℤ) : LBState × ℕ :=
  let s1 := lbLeak s now
  (s1, s1.queue.length)

/-! ### Fixed Window (class FixedWindowLimiter)

The constructor takes the window size in seconds and stores it in
milliseconds; `windowSize` below is the stored millisecond value. -/

structure FWState where
  windowSize : ℤ
  limit : ℕ
  windowStart : ℤ
  count : ℕ
  deriving DecidableEq, Repr

/-- getCurrentWindow(): Math.floor(now / windowSize) * windowSize. -/
def fwWindow (windowSize now : ℤ) : ℤ :=
  (Int.fdiv now windowSize) * windowSize

def FWState.init (windowSize : ℤ) (limit : ℕ) (now : ℤ) : FWState :=
  ⟨windowSize, limit, fwWindow windowSize now, 0⟩

/-- allowRequest(tokens): roll to the current window (resetting the count),
then admit iff the incremented count stays within the limit. -/
def fwStep (s : FWState) (now : ℤ) (cost : ℕ) : FWState × Decision :=
  let currentWindow := fwWindow s.windowSize now
  let s1 := if currentWindow ≠ s.windowStart
            then { s with windowStart := currentWindow, count := 0 } else s
  if s1.count + cost ≤ s.limit then
    let s2 := { s1 with count := s1.count + cost }
    (s2, { allowed := true, limit := (s.limit : ℚ),
           remaining := (s.limit : ℚ) - (s2.count : ℚ),
           resetAt := ((s2.windowStart + s.windowSize : ℤ) : ℚ),
           retryAfter := none })
  else
    (s1, { allowed := false, limit := (s.limit : ℚ), remaining := 0,
           resetAt := ((s1.windowStart + s.windowSize : ℤ) : ℚ),
           retryAfter :=
             some ((((s1.windowStart + s.windowSize : ℤ) : ℚ) - (now : ℚ)) / 1000) })

def fwReset (s : FWState) (now : ℤ) : FWState :=
  { s with windowStart := fwWindow s.windowSize now, count := 0 }

/-! ### Sliding Window Log (class SlidingWindowLogLimiter) -/

structure SWLState where
  windowSize : ℤ
  limit : ℕ
  requests : List ℤ
  deriving DecidableEq, Repr

def SWLState.init (windowSize : ℤ) (limit : ℕ) : SWLState :=
  ⟨windowSize, limit, []⟩

/-- private removeOldRequests(): shift off leading timestamps that are at or
before the cutoff now - windowSize. -/
def swlRemoveOld (s : SWLState) (now : ℤ) : SWLState :=
  { s with requests := s.requests.dropWhile (fun t => t ≤ now - s.windowSize) }

/-- allowRequest(tokens): prune, then admit iff the log has room, appending
`tokens` copies of now. -/
def swlStep (s : SWLState) (now : ℤ) (cost : ℕ) : SWLState × Decision :=
  let s1 := swlRemoveOld s now
  if s1.requests.length + cost ≤ s.limit then
    let s2 := { s1 with requests := s1.requests ++ List.replicate cost now }
    let oldest := s2.requests.headD now
    (s2, { allowed := true, limit := (s.limit : ℚ),
           remaining := (s.limit : ℚ) - (s2.requests.length : ℚ),
           resetAt := ((oldest + s.windowSize : ℤ) : ℚ),
           retryAfter := none })
  else
    match s1.requests.head? with
    | some oldest =>
        let retryAfter := (((oldest + s.windowSize : ℤ) : ℚ) - (now : ℚ)) / 1000
        (s1, { allowed := false, limit := (s.limit : ℚ), remaining := 0,
               resetAt := ((oldest + s.windowSize : ℤ) : ℚ),
               retryAfter := some (max 0 retryAfter) })
    | none =>
        (s1, { allowed := false, limit := (s.limit : ℚ), remaining := 0,
               resetAt := (now : ℚ), retryAfter := some (max 0 0) })

def swlReset (s : SWLState) : SWLState :=
  { s with requests := [] }

/-- getRequestCount(): prunes, then reads the log length. -/
def swlGetRequestCount (s : SWLState) (now : ℤ) : SWLState × ℕ :=
  let s1 := swlRemoveOld s now
  (s1, s1.requests.length)

/-! ### Sliding Window Counter (class SlidingWindowCounterLimiter) -/

structure SWCState where
  windowSize : ℤ
  limit : ℕ
  curStart : ℤ
  curCount : ℕ
  prevStart : ℤ
  prevCount : ℕ
  deriving DecidableEq, Repr

def SWCState.init (windowSize : ℤ) (limit : ℕ) : SWCState :=
  ⟨windowSize, limit, 0, 0, 0, 0⟩

/-- private estimateCount(now): floor(previous.count * overlapPercent) +
current.count, with overlapPercent = max(0, (windowSize - elapsed) /
windowSize). -/
def swcEstimate (s : SWCState) (now : ℤ) : ℤ :=
  let elapsed : ℚ := (now : ℚ) - (s.curStart : ℚ)
  let overlapPercent : ℚ := max 0 (((s.windowSize : ℚ) - elapsed) / (s.windowSize : ℚ))
  ⌊(s.prevCount : ℚ) * overlapPercent⌋ + (s.curCount : ℤ)

/-- allowRequest(tokens): shift windows if the clock entered a new window,
then admit iff the weighted estimate stays within the limit. -/
def swcStep (s : SWCState) (now : ℤ) (cost : ℕ) : SWCState × Decision :=
  let windowStart := fwWindow s.windowSize now
  let s1 := if windowStart ≠ s.curStart
            then { s with prevStart := s.curStart, prevCount := s.curCount,
                          curStart := windowStart, curCount := 0 }
            else s
  let estimatedCount := swcEstimate s1 now
  if estimatedCount + cost ≤ s.limit then
    let s2 := { s1 with curCount := s1.curCount + cost }
    (s2, { allowed := true, limit := (s.limit : ℚ),
           remaining := max 0 ((s.limit : ℚ) - (estimatedCount : ℚ) - (cost : ℚ)),
           resetAt := ((s2.curStart + s.windowSize : ℤ) : ℚ),
           retryAfter := none })
  else
    (s1, { allowed := false, limit := (s.limit : ℚ), remaining := 0,
           resetAt := ((s1.curStart + s.windowSize : ℤ) : ℚ),
           retryAfter :=
             some ((((s1.curStart + s.windowSize : ℤ) : ℚ) - (now : ℚ)) / 1000) })

/-! ### Concurrent Requests (class ConcurrentRequestsLimiter)

The active count is an integer in the source; it is modelled on ℤ so that
the claimed lower bound 0 is a real statement about the clamp. -/

structure CRState where
  maxConcurrent : ℤ
  active : ℤ
  deriving DecidableEq, Repr

def CRState.init (maxConcurrent : ℤ) : CRState :=
  ⟨maxConcurrent, 0⟩

/-- allowRequest(tokens): admit iff active + tokens stays within the cap. -/
def crStep (s : CRState) (cost : ℕ) : CRState × Decision :=
  if s.active + cost ≤ s.maxConcurrent then
    let s1 := { s with active := s.active + cost }
    (s1, { allowed := true, limit := (s.maxConcurrent : ℚ),
           remaining := ((s.maxConcurrent - s1.active : ℤ) : ℚ),
           resetAt := 0, retryAfter := none })
  else
    (s, { allowed := false, limit := (s.maxConcurrent : ℚ), remaining := 0,
          resetAt := 0, retryAfter := none })

/-- release(tokens): decrement, clamped at zero. -/
def crRelease (s : CRState) (cost : ℕ) : CRState :=
  { s with active := max 0 (s.active - cost) }

def crReset (s : CRState) : CRState :=
  { s with active := 0 }

/-! ### The common limiter interface and MultiTierLimiter

A MultiTierLimiter member is any of the six algorithm states; stepLim is
the dynamic dispatch of allowRequest. -/

inductive LimState where
  | tb : TBState → LimState
  | lb : LBState → LimState
  | fw : FWState → LimState
  | swl : SWLState → LimState
  | swc : SWCState → LimState
  | cr : CRState → LimState
  deriving DecidableEq, Repr

def stepLim (s : LimState) (now : ℤ) (cost : ℕ) : LimState × Decision :=
  match s with
  | .tb st => let (st', d) := tbStep st now cost; (.tb st', d)
  | .lb st => let (st', d) := lbStep st now cost; (.lb st', d)
  | .fw st => let (st', d) := fwStep st now cost; (.fw st', d)
  | .swl st => let (st', d) := swlStep st now cost; (.swl st', d)
  | .swc st => let (st', d) := swcStep st now cost; (.swc st', d)
  | .cr st => let (st', d) := crStep st cost; (.cr st', d)

/-- The loop body of MultiTierLimiter.allowRequest: consult members in
order, collecting each result; the first rejection stops the loop, leaving
the remaining members untouched, and carries that member's Decision out. -/
def mtGo (now : ℤ) (cost : ℕ) : List LimState → List LimState × List Decision × Option Decision
  | [] => ([], [], none)
  | s :: ss =>
    let (s', d) := stepLim s now cost
    if d.allowed then
      let (ss', ds, r) := mtGo now cost ss
      (s' :: ss', d :: ds, r)
    else
      (s' :: ss, [d], some d)

/-- results.reduce keeping whichever of accumulator and current has the
strictly smaller remaining (JavaScript reduce with no initial value: the
head seeds the fold; an empty array throws, modelled as none). -/
def reduceMinRemaining : List Decision → Option Decision
  | [] => none
  | d :: ds => some (ds.foldl (fun most current =>
      if current.remaining < most.remaining then current else most) d)

/-- MultiTierLimiter.allowRequest: first rejection is returned verbatim;
if every member admits, the reduce over collected results is returned. -/
def mtStep (ss : List LimState) (now : ℤ) (cost : ℕ) : List LimState × Option Decision :=
  let (ss', ds, r) := mtGo now cost ss
  match r with
  | some d => (ss', some d)
  | none => (ss', reduceMinRemaining ds)

/-! ### Runs: folding call sequences through a limiter -/

/-- Feed a list of (callTime, cost) pairs through one limiter. -/
def limRun (s : LimState) : List (ℤ × ℕ) → LimState
  | [] => s
  | (t, c) :: rest => limRun (stepLim s t c).1 rest

/-- The Decision of each call of a run of one limiter. -/
def limRunDecisions (s : LimState) : List (ℤ × ℕ) → List Decision
  | [] => []
  | (t, c) :: rest =>
    let (s', d) := stepLim s t c
    d :: limRunDecisions s' rest

/-- Feed a list of (callTime, cost) pairs through a MultiTierLimiter. -/
def mtRun (ss : List LimState) : List (ℤ × ℕ) → List LimState
  | [] => ss
  | (t, c) :: rest => mtRun (mtStep ss t c).1 rest

/-- The Decision of each call of a run of a MultiTierLimiter. -/
def mtRunDecisions (ss : List LimState) : List (ℤ × ℕ) → List (Option Decision)
  | [] => []
  | (t, c) :: rest =>
    let (ss', d) := mtStep ss t c
    d :: mtRunDecisions ss' rest

/-! ### Instrumented runs used by the stated properties -/

/-- An operation on a time-based limiter: an allowRequest call or a reset
call, each made at some clock reading. -/
inductive RLOp where
  | allow (now : ℤ) (cost : ℕ)
  | reset (now : ℤ)
  deriving DecidableEq, Repr

def RLOp.time : RLOp → ℤ
  | .allow t _ => t
  | .reset t => t

def tbRunOps (s : TBState) : List RLOp → TBState
  | [] => s
  | .allow t c :: rest => tbRunOps (tbStep s t c).1 rest
  | .reset t :: rest => tbRunOps (tbReset s t) rest

def lbRunOps (s : LBState) : List RLOp → LBState
  | [] => s
  | .allow t c :: rest => lbRunOps (lbStep s t c).1 rest
  | .reset t :: rest => lbRunOps (lbReset s t) rest

/-- An operation on the concurrent-requests limiter. -/
inductive CROp where
  | allow (cost : ℕ)
  | release (cost : ℕ)
  deriving DecidableEq, Repr

def crRunOps (s : CRState) : List CROp → CRState
  | [] => s
  | .allow c :: rest => crRunOps (crStep s c).1 rest
  | .release c :: rest => crRunOps (crRelease s c) rest

/-- Total cost admitted over a run (the sum of costs of the allowRequest
calls that returned allowed = true). -/
def crAdmittedTotal (s : CRState) : List CROp → ℕ
  | [] => 0
  | .allow c :: rest =>
    let (s', d) := crStep s c
    (if d.allowed then c else 0) + crAdmittedTotal s' rest
  | .release c :: rest => crAdmittedTotal (crRelease s c) rest

/-- Total cost passed to release calls over an operation list. -/
def crReleasedTotal : List CROp → ℕ
  | [] => 0
  | .allow _ :: rest => crReleasedTotal rest
  | .release c :: rest => c + crReleasedTotal rest

/-- Run the sliding-window counter, also counting how many window
transitions (calls whose clock reading falls in a window different from
current.start) occur. -/
def swcRunCount (s : SWCState) : List (ℤ × ℕ) → SWCState × ℕ
  | [] => (s, 0)
  | (t, c) :: rest =>
    let trans : ℕ := if fwWindow s.windowSize t ≠ s.curStart then 1 else 0
    let (s', n) := swcRunCount (swcStep s t c).1 rest
    (s', trans + n)

/-- All timestamps admitted over a run of the sliding-window log: an
admitted call of cost c at time t contributes c copies of t. -/
def swlAdmitted (s : SWLState) : List (ℤ × ℕ) → List ℤ
  | [] => []
  | (t, c) :: rest =>
    let (s', d) := swlStep s t c
    (if d.allowed then List.replicate c t else []) ++ swlAdmitted s' rest

/-- How many of the timestamps fall in the sliding interval of length W
that starts just after a (the half-open interval from a exclusive to
a + W inclusive, matching the pruning cutoff now - W exclusive). -/
def countWindow (a W : ℤ) (l : List ℤ) : ℕ :=
  l.countP (fun t => decide (a < t) && decide (t ≤ a + W))

/-! ### RedisFixedWindowCounter (redis-adapter.ts)

Its consume() reads the per-window counter with a plain GET and then,
if the limit allows, increments it with a separate INCRBY. The store is
modelled as the map from window-start key to counter value (absent = 0,
as `current ? parseInt(current) : 0`); the clock reading now is
Date.now()/1000, a rational number of seconds, and windowSize is in
seconds. -/

def rfwWindowStart (windowSize : ℤ) (now : ℚ) : ℤ :=
  ⌊now / (windowSize : ℚ)⌋ * windowSize

/-- One consume(tokens) call run to completion with no interleaved writer:
get, then conditionally incrBy. Returns the new store and the decision. -/
def rfwConsume (limit : ℕ) (windowSize : ℤ) (store : ℤ → ℕ) (now : ℚ) (cost : ℕ) :
    (ℤ → ℕ) × Bool :=
  let ws := rfwWindowStart windowSize now
  let currentCount := store ws
  if currentCount + cost ≤ limit then
    (fun k => if k = ws then store k + cost else store k, true)
  else
    (store, false)

/-- Two concurrent consume() calls whose storage round trips interleave:
both GETs execute before either INCRBY (each await is a suspension point,
so this schedule is one the code permits). Each caller decides from the
count it read; the increments of the admitted callers then both apply. -/
def rfwConsume2Interleaved (limit : ℕ) (windowSize : ℤ) (store : ℤ → ℕ)
    (now1 now2 : ℚ) (c1 c2 : ℕ) : (ℤ → ℕ) × Bool × Bool :=
  let ws1 := rfwWindowStart windowSize now1
  let ws2 := rfwWindowStart windowSize now2
  let cur1 := store ws1
  let cur2 := store ws2
  let store1 := if cur1 + c1 ≤ limit
                then (fun k => if k = ws1 then store k + c1 else store k)
                else store
  let store2 := if cur2 + c2 ≤ limit
                then (fun k => if k = ws2 then store1 k + c2 else store1 k)
                else store1
  (store2, decide (cur1 + c1 ≤ limit), decide (cur2 + c2 ≤ limit))

/-- A sequence of consume() calls executed serially (each call's get and
increment complete before the next call starts). -/
def rfwRunSerial (limit : ℕ) (windowSize : ℤ) (store : ℤ → ℕ) :
    List (ℚ × ℕ) → (ℤ → ℕ)
  | [] => store
  | (t, c) :: rest => rfwRunSerial limit windowSize (rfwConsume limit windowSize store t c).1 rest


/-! ## Unfolding equations (phrased with projections, all definitional) -/

theorem stepLim_tb (st : TBState) (t : ℤ) (c : ℕ) :
    stepLim (.tb st) t c = (.tb (tbStep st t c).1, (tbStep st t c).2) := rfl

theorem stepLim_lb (st : LBState) (t : ℤ) (c : ℕ) :
    stepLim (.lb st) t c = (.lb (lbStep st t c).1, (lbStep st t c).2) := rfl

theorem stepLim_fw (st : FWState) (t : ℤ) (c : ℕ) :
    stepLim (.fw st) t c = (.fw (fwStep st t c).1, (fwStep st t c).2) := rfl

theorem stepLim_swl (st : SWLState) (t : ℤ) (c : ℕ) :
    stepLim (.swl st) t c = (.swl (swlStep st t c).1, (swlStep st t c).2) := rfl

theorem stepLim_swc (st : SWCState) (t : ℤ) (c : ℕ) :
    stepLim (.swc st) t c = (.swc (swcStep st t c).1, (swcStep st t c).2) := rfl

theorem stepLim_cr (st : CRState) (t : ℤ) (c : ℕ) :
    stepLim (.cr st) t c = (.cr (crStep st c).1, (crStep st c).2) := rfl

theorem limRun_nil (s : LimState) : limRun s [] = s := rfl

theorem limRun_cons (s : LimState) (t : ℤ) (c : ℕ) (rest : List (ℤ × ℕ)) :
    limRun s ((t, c) :: rest) = limRun (stepLim s t c).1 rest := rfl

theorem limRunDecisions_nil (s : LimState) : limRunDecisions s [] = [] := rfl

theorem limRunDecisions_cons (s : LimState) (t : ℤ) (c : ℕ) (rest : List (ℤ × ℕ)) :
    limRunDecisions s ((t, c) :: rest) =
      (stepLim s t c).2 :: limRunDecisions (stepLim s t c).1 rest := rfl

theorem mtRun_nil (ss : List LimState) : mtRun ss [] = ss := rfl

theorem mtRun_cons (ss : List LimState) (t : ℤ) (c : ℕ) (rest : List (ℤ × ℕ)) :
    mtRun ss ((t, c) :: rest) = mtRun (mtStep ss t c).1 rest := rfl

theorem mtRunDecisions_nil (ss : List LimState) : mtRunDecisions ss [] = [] := rfl

theorem mtRunDecisions_cons (ss : List LimState) (t : ℤ) (c : ℕ) (rest : List (ℤ × ℕ)) :
    mtRunDecisions ss ((t, c) :: rest) =
      (mtStep ss t c).2 :: mtRunDecisions (mtStep ss t c).1 rest := rfl

theorem mtGo_nil (t : ℤ) (c : ℕ) : mtGo t c [] = ([], [], none) := rfl

theorem mtGo_cons (t : ℤ) (c : ℕ) (s : LimState) (ss : List LimState) :
    mtGo t c (s :: ss) =
      if (stepLim s t c).2.allowed then
        ((stepLim s t c).1 :: (mtGo t c ss).1,
         (stepLim s t c).2 :: (mtGo t c ss).2.1, (mtGo t c ss).2.2)
      else
        ((stepLim s t c).1 :: ss, [(stepLim s t c).2], some (stepLim s t c).2) := rfl

theorem mtStep_eq (ss : List LimState) (t : ℤ) (c : ℕ) :
    mtStep ss t c =
      (match (mtGo t c ss).2.2 with
       | some d => ((mtGo t c ss).1, some d)
       | none => ((mtGo t c ss).1, reduceMinRemaining (mtGo t c ss).2.1)) := rfl

/-! ## Shared run lemmas -/

theorem limRunDecisions_append (s : LimState) (l1 l2 : List (ℤ × ℕ)) :
    limRunDecisions s (l1 ++ l2) =
      limRunDecisions s l1 ++ limRunDecisions (limRun s l1) l2 := by
  induction l1 generalizing s with
  | nil => simp [limRunDecisions_nil, limRun_nil]
  | cons p rest ih =>
    obtain ⟨t, c⟩ := p
    simp [limRunDecisions_cons, limRun_cons, ih]

/-- Stepping a fixed-window limiter inside its current window when the
incremented count stays within the limit: the call is admitted and only
the count changes. -/
theorem fwStep_same_window (W : ℤ) (L : ℕ) (t : ℤ) (c cost : ℕ)
    (h : c + cost ≤ L) :
    (fwStep ⟨W, L, fwWindow W t, c⟩ t cost).1 = ⟨W, L, fwWindow W t, c + cost⟩ ∧
    (fwStep ⟨W, L, fwWindow W t, c⟩ t cost).2.allowed = true := by
  unfold fwStep
  simp [h]

/-- Running a block of m unit calls at one time t inside the current
window: every call is admitted and the count rises by m. -/
theorem fw_same_window_block (W : ℤ) (L : ℕ) (t : ℤ) :
    ∀ (m c : ℕ), c + m ≤ L →
    (limRunDecisions (.fw ⟨W, L, fwWindow W t, c⟩)
        (List.replicate m (t, 1))).all (fun d => d.allowed) = true ∧
    limRun (.fw ⟨W, L, fwWindow W t, c⟩) (List.replicate m (t, 1)) =
      .fw ⟨W, L, fwWindow W t, c + m⟩ := by
  intro m
  induction m with
  | zero => intro c h; simp [limRunDecisions_nil, limRun_nil]
  | succ m ih =>
    intro c h
    have hstep := fwStep_same_window W L t c 1 (by omega)
    have ih' := ih (c + 1) (by omega)
    rw [List.replicate_succ]
    refine ⟨?_, ?_⟩
    · rw [limRunDecisions_cons, List.all_cons, stepLim_fw, hstep.1, hstep.2]
      simpa using ih'.1
    · rw [limRun_cons, stepLim_fw, hstep.1, ih'.2]
      congr 2
      omega

/-- C8: for a FixedWindowLimiter with a 1000 ms window and limit L,
starting fresh with count 0 in the window containing t = 999 ms, the L
unit-cost calls at t = 999 and the further L unit-cost calls at t = 1001
are all admitted (2L admissions straddling the window boundary). -/
theorem c8_fixed_window_boundary (L : ℕ) :
    (limRunDecisions (.fw (FWState.init 1000 L 999))
        (List.replicate L (999, 1) ++ List.replicate L (1001, 1))).all
      (fun d => d.allowed) = true := by
  have hinit : FWState.init 1000 L 999 = ⟨1000, L, fwWindow 1000 999, 0⟩ := rfl
  rw [hinit, limRunDecisions_append, List.all_append, Bool.and_eq_true]
  have h1 := fw_same_window_block 1000 L 999 L 0 (by omega)
  refine ⟨h1.1, ?_⟩
  rw [h1.2]
  cases L with
  | zero => simp [limRunDecisions_nil]
  | succ k =>
    have hne : fwWindow 1000 1001 ≠ fwWindow 1000 999 := by decide
    have hroll : (fwStep ⟨1000, k + 1, fwWindow 1000 999, 0 + (k + 1)⟩ 1001 1).1 =
        ⟨1000, k + 1, fwWindow 1000 1001, 0 + 1⟩ ∧
        (fwStep ⟨1000, k + 1, fwWindow 1000 999, 0 + (k + 1)⟩ 1001 1).2.allowed = true := by
      unfold fwStep
      simp [hne, show 1 ≤ k + 1 by omega]
    rw [List.replicate_succ, limRunDecisions_cons, List.all_cons, stepLim_fw,
      hroll.1, hroll.2, Bool.true_and]
    simpa using (fw_same_window_block 1000 (k + 1) 1001 k 1 (by omega)).1

/-! ## C9: concurrent limiter release clamp -/

theorem crRunOps_append (s : CRState) (l1 l2 : List CROp) :
    crRunOps s (l1 ++ l2) = crRunOps (crRunOps s l1) l2 := by
  induction l1 generalizing s with
  | nil => rfl
  | cons op rest ih =>
    cases op with
    | allow c => simp only [List.cons_append, crRunOps]; exact ih _
    | release c => simp only [List.cons_append, crRunOps]; exact ih _

theorem crStep_state (s : CRState) (c : ℕ) :
    (crStep s c).1 = if s.active + c ≤ s.maxConcurrent
                     then { s with active := s.active + c } else s := by
  unfold crStep
  split <;> rfl

theorem crStep_allowed (s : CRState) (c : ℕ) :
    (crStep s c).2.allowed = decide (s.active + c ≤ s.maxConcurrent) := by
  unfold crStep
  split <;> simp_all

theorem cr_active_nonneg (ops : List CROp) :
    ∀ (s : CRState), 0 ≤ s.active → 0 ≤ (crRunOps s ops).active := by
  induction ops with
  | nil => intro s h; exact h
  | cons op rest ih =>
    intro s h
    cases op with
    | allow c =>
      simp only [crRunOps]
      apply ih
      rw [crStep_state]
      split
      · simp only
        omega
      · exact h
    | release c =>
      simp only [crRunOps]
      apply ih
      simp only [crRelease]
      exact le_max_left 0 _

theorem cr_active_le_admitted (ops : List CROp) :
    ∀ (s : CRState), 0 ≤ s.active →
      (crRunOps s ops).active ≤ s.active + crAdmittedTotal s ops := by
  induction ops with
  | nil => intro s _; simp [crRunOps, crAdmittedTotal]
  | cons op rest ih =>
    intro s h
    cases op with
    | allow c =>
      simp only [crRunOps, crAdmittedTotal]
      have hs := crStep_state s c
      have hd := crStep_allowed s c
      by_cases hadm : s.active + c ≤ s.maxConcurrent
      · have h1 : (crStep s c).1 = { s with active := s.active + c } := by
          rw [hs, if_pos hadm]
        have h2 : (crStep s c).2.allowed = true := by
          rw [hd, decide_eq_true_eq]; exact hadm
        rw [h1, h2]
        have := ih { s with active := s.active + c } (by simp only; omega)
        simp only [if_pos] at this ⊢
        omega
      · have h1 : (crStep s c).1 = s := by rw [hs, if_neg hadm]
        have h2 : (crStep s c).2.allowed = false := by
          rw [hd, decide_eq_false_iff_not]; exact hadm
        rw [h1, h2]
        have := ih s h
        simp only [Bool.false_eq_true, if_neg, if_false] at this ⊢
        omega
    | release c =>
      simp only [crRunOps, crAdmittedTotal]
      have h0 : 0 ≤ (crRelease s c).active := le_max_left 0 _
      have hle : (crRelease s c).active ≤ s.active := by
        simp only [crRelease]
        omega
      have := ih (crRelease s c) h0
      omega

theorem cr_releases_clamp (rels : List ℕ) :
    ∀ (s : CRState), 0 ≤ s.active →
      (crRunOps s (rels.map CROp.release)).active =
        max 0 (s.active - (rels.sum : ℤ)) := by
  induction rels with
  | nil =>
    intro s h
    simp only [List.map_nil, crRunOps, List.sum_nil, Nat.cast_zero, sub_zero]
    omega
  | cons c cs ih =>
    intro s h
    simp only [List.map_cons, crRunOps, List.sum_cons]
    rw [ih (crRelease s c) (le_max_left 0 _)]
    simp only [crRelease, Nat.cast_add]
    omega

/-- C9 (amended): over every interleaving of allowRequest and release
calls the active count never goes negative (release clamps at zero); and
a run of releases whose total cost reaches the total admitted cost of the
preceding calls leaves the active count at exactly 0. -/
theorem c9_release_clamp :
    (∀ (m : ℤ) (ops : List CROp), 0 ≤ (crRunOps (CRState.init m) ops).active) ∧
    (∀ (m : ℤ) (ops : List CROp) (rels : List ℕ),
      crAdmittedTotal (CRState.init m) ops ≤ rels.sum →
      (crRunOps (CRState.init m) (ops ++ rels.map CROp.release)).active = 0) := by
  constructor
  · intro m ops
    exact cr_active_nonneg ops (CRState.init m) le_rfl
  · intro m ops rels hsum
    rw [crRunOps_append]
    have h0 : 0 ≤ (crRunOps (CRState.init m) ops).active :=
      cr_active_nonneg ops (CRState.init m) le_rfl
    have hA : (crRunOps (CRState.init m) ops).active ≤
        crAdmittedTotal (CRState.init m) ops := by
      have := cr_active_le_admitted ops (CRState.init m) le_rfl
      simpa [CRState.init] using this
    rw [cr_releases_clamp rels _ h0]
    have : (crRunOps (CRState.init m) ops).active - (rels.sum : ℤ) ≤ 0 := by
      have hcast : (crAdmittedTotal (CRState.init m) ops : ℤ) ≤ (rels.sum : ℤ) := by
        exact_mod_cast hsum
      omega
    omega

/-- C9 counterexample to the claim as stated: an interleaving in which the
total released cost (4) strictly exceeds the total admitted cost (3), yet
the final active count is 1, not 0 — an early over-release is absorbed by
the clamp and does not offset admissions that come after it. -/
theorem c9_counterexample :
    crAdmittedTotal (CRState.init 5)
      [CROp.allow 1, CROp.release 3, CROp.allow 2, CROp.release 1] = 3 ∧
    crReleasedTotal [CROp.allow 1, CROp.release 3, CROp.allow 2, CROp.release 1] = 4 ∧
    (crRunOps (CRState.init 5)
      [CROp.allow 1, CROp.release 3, CROp.allow 2, CROp.release 1]).active = 1 := by
  refine ⟨by decide, by decide, by decide⟩

/-- Witness for c9_release_clamp at a concrete run: admit cost 2 then cost
1, then release 2 twice; the releases total 4 ≥ 3 admitted, and active
ends at 0. -/
theorem c9_witness :
    crAdmittedTotal (CRState.init 5) [CROp.allow 2, CROp.allow 1] ≤
      ([2, 2] : List ℕ).sum ∧
    (crRunOps (CRState.init 5)
      ([CROp.allow 2, CROp.allow 1] ++ ([2, 2] : List ℕ).map CROp.release)).active = 0 :=
  ⟨by decide, c9_release_clamp.2 5 [CROp.allow 2, CROp.allow 1] [2, 2] (by decide)⟩

/-! ## C4: observability accessors -/

/-- Refilling twice at nondecreasing clock readings equals refilling once
at the later reading (for a nonnegative refill rate). -/
theorem tbRefill_comp (s : TBState) (now now' : ℤ)
    (hr : 0 ≤ s.refillRate) (h1 : now ≤ now') :
    tbRefill (tbRefill s now) now' = tbRefill s now' := by
  unfold tbRefill
  simp only [TBState.mk.injEq]
  refine ⟨trivial, trivial, ?_, trivial⟩
  have hd : 0 ≤ ((now' : ℚ) - (now : ℚ)) / 1000 * s.refillRate := by
    apply mul_nonneg _ hr
    apply div_nonneg _ (by norm_num)
    rw [sub_nonneg]
    exact_mod_cast h1
  rcases le_total s.tokens s.capacity with hc | hc
  · have harith : s.tokens + ((now : ℚ) - (s.lastRefill : ℚ)) / 1000 * s.refillRate +
        ((now' : ℚ) - (now : ℚ)) / 1000 * s.refillRate =
        s.tokens + ((now' : ℚ) - (s.lastRefill : ℚ)) / 1000 * s.refillRate := by ring
    rcases le_total (s.tokens + ((now : ℚ) - (s.lastRefill : ℚ)) / 1000 * s.refillRate)
        s.capacity with hx | hx
    · rw [min_eq_right hx, harith]
    · rw [min_eq_left hx]
      rw [min_eq_left (by linarith), min_eq_left (by linarith)]
  · have harith : s.tokens + ((now : ℚ) - (s.lastRefill : ℚ)) / 1000 * s.refillRate +
        ((now' : ℚ) - (now : ℚ)) / 1000 * s.refillRate =
        s.tokens + ((now' : ℚ) - (s.lastRefill : ℚ)) / 1000 * s.refillRate := by ring
    rcases le_total (s.tokens + ((now : ℚ) - (s.lastRefill : ℚ)) / 1000 * s.refillRate)
        s.capacity with hx | hx
    · rw [min_eq_right hx, harith]
    · rw [min_eq_left hx]
      rw [min_eq_left (by linarith), min_eq_left (by linarith)]

theorem tbRefill_capacity (s : TBState) (now : ℤ) :
    (tbRefill s now).capacity = s.capacity := rfl

theorem tbRefill_rate (s : TBState) (now : ℤ) :
    (tbRefill s now).refillRate = s.refillRate := rfl

/-- C4 (amended): the accessors are not state-preserving — each first
applies the limiter's lazy time update (refill, leak, prune) and stores
the refreshed state — but for the token bucket this mutation is
observationally benign: a getTokens call never changes the outcome (state
or Decision) of a later allowRequest made at the same or a later clock
reading. -/
theorem c4_accessor_effect (s : TBState) (now now' : ℤ) (c : ℕ)
    (hr : 0 ≤ s.refillRate) (h2 : now ≤ now') :
    tbStep (tbGetTokens s now).1 now' c = tbStep s now' c := by
  have hstate : (tbGetTokens s now).1 = tbRefill s now := rfl
  rw [hstate]
  unfold tbStep
  rw [tbRefill_comp s now now' hr h2, tbRefill_capacity, tbRefill_rate]

/-- C4 counterexample to the claim as stated: a reachable token-bucket
state (capacity 10, refill rate 2, five tokens spent at t = 0) on which
getTokens at t = 1000 changes the stored state (tokens 5 → 7, lastRefill
0 → 1000). -/
theorem c4_counterexample :
    (tbGetTokens (tbStep (TBState.init 10 2 0) 0 5).1 1000).1 ≠
      (tbStep (TBState.init 10 2 0) 0 5).1 := by
  norm_num [tbGetTokens, tbStep, tbRefill, TBState.init, TBState.mk.injEq]

/-- Witness for c4_accessor_effect at concrete inputs. -/
theorem c4_witness :
    tbStep (tbGetTokens (TBState.init 10 2 0) 500).1 1000 1 =
      tbStep (TBState.init 10 2 0) 1000 1 :=
  c4_accessor_effect (TBState.init 10 2 0) 500 1000 1 (by norm_num [TBState.init]) (by norm_num)

/-! ## C3: sliding-window counter window spacing -/

theorem fwWindow_dvd (W t : ℤ) : W ∣ fwWindow W t :=
  dvd_mul_left W (Int.fdiv t W)

theorem fwWindow_mono (W : ℤ) (hW : 0 < W) {t t' : ℤ} (h : t ≤ t') :
    fwWindow W t ≤ fwWindow W t' := by
  unfold fwWindow
  rw [Int.fdiv_eq_ediv t (le_of_lt hW), Int.fdiv_eq_ediv t' (le_of_lt hW)]
  exact mul_le_mul_of_nonneg_right (Int.ediv_le_ediv hW h) (le_of_lt hW)

theorem fwWindow_nonneg (W : ℤ) (hW : 0 < W) {t : ℤ} (h : 0 ≤ t) :
    0 ≤ fwWindow W t := by
  unfold fwWindow
  rw [Int.fdiv_eq_ediv t (le_of_lt hW)]
  exact mul_nonneg (Int.ediv_nonneg h (le_of_lt hW)) (le_of_lt hW)

theorem swcRunCount_nil (s : SWCState) : swcRunCount s [] = (s, 0) := rfl

theorem swcRunCount_cons (s : SWCState) (t : ℤ) (c : ℕ) (rest : List (ℤ × ℕ)) :
    swcRunCount s ((t, c) :: rest) =
      ((swcRunCount (swcStep s t c).1 rest).1,
       (if fwWindow s.windowSize t ≠ s.curStart then 1 else 0) +
         (swcRunCount (swcStep s t c).1 rest).2) := rfl

theorem swcStep_windowSize (s : SWCState) (t : ℤ) (c : ℕ) :
    (swcStep s t c).1.windowSize = s.windowSize := by
  unfold swcStep
  dsimp only
  by_cases hA : fwWindow s.windowSize t ≠ s.curStart
  · rw [if_pos hA]
    split <;> rfl
  · rw [if_neg hA]
    split <;> rfl

theorem swcStep_curStart_tr (s : SWCState) (t : ℤ) (c : ℕ)
    (h : fwWindow s.windowSize t ≠ s.curStart) :
    (swcStep s t c).1.curStart = fwWindow s.windowSize t := by
  unfold swcStep
  dsimp only
  rw [if_pos h]
  split <;> rfl

theorem swcStep_prevStart_tr (s : SWCState) (t : ℤ) (c : ℕ)
    (h : fwWindow s.windowSize t ≠ s.curStart) :
    (swcStep s t c).1.prevStart = s.curStart := by
  unfold swcStep
  dsimp only
  rw [if_pos h]
  split <;> rfl

theorem swcStep_curStart_keep (s : SWCState) (t : ℤ) (c : ℕ)
    (h : ¬fwWindow s.windowSize t ≠ s.curStart) :
    (swcStep s t c).1.curStart = s.curStart := by
  unfold swcStep
  dsimp only
  rw [if_neg h]
  split <;> rfl

theorem swcStep_prevStart_keep (s : SWCState) (t : ℤ) (c : ℕ)
    (h : ¬fwWindow s.windowSize t ≠ s.curStart) :
    (swcStep s t c).1.prevStart = s.prevStart := by
  unfold swcStep
  dsimp only
  rw [if_neg h]
  split <;> rfl

/-- Invariant carried through a sorted run of the sliding-window counter:
the current window start is a multiple of the window size that only moves
forward; once at least one transition has occurred the previous start is
also a multiple and lies strictly before the current start. -/
theorem swc_spacing_inv (W : ℤ) (hW : 0 < W) :
    ∀ (calls : List (ℤ × ℕ)) (s : SWCState),
      s.windowSize = W →
      W ∣ s.curStart →
      (∀ p ∈ calls, s.curStart ≤ fwWindow W p.1) →
      List.Sorted (· ≤ ·) (calls.map Prod.fst) →
      W ∣ (swcRunCount s calls).1.curStart ∧
      ((swcRunCount s calls).2 = 0 →
        (swcRunCount s calls).1.curStart = s.curStart ∧
        (swcRunCount s calls).1.prevStart = s.prevStart) ∧
      (1 ≤ (swcRunCount s calls).2 →
        W ∣ (swcRunCount s calls).1.prevStart ∧
        (swcRunCount s calls).1.prevStart < (swcRunCount s calls).1.curStart) := by
  intro calls
  induction calls with
  | nil =>
    intro s hws hdvd _ _
    rw [swcRunCount_nil]
    exact ⟨hdvd, fun _ => ⟨rfl, rfl⟩, fun h => absurd h (by omega)⟩
  | cons p rest ih =>
    obtain ⟨t, c⟩ := p
    intro s hws hdvd hlo hsorted
    have hmono : ∀ q ∈ rest, t ≤ q.1 := by
      intro q hq
      have h := hsorted
      rw [List.map_cons, List.sorted_cons] at h
      exact h.1 q.1 (List.mem_map_of_mem Prod.fst hq)
    have hsorted' : List.Sorted (· ≤ ·) (rest.map Prod.fst) := by
      rw [List.map_cons, List.sorted_cons] at hsorted
      exact hsorted.2
    have hwsz := swcStep_windowSize s t c
    rw [swcRunCount_cons, hws]
    by_cases htr : fwWindow W t ≠ s.curStart
    · have htr' : fwWindow s.windowSize t ≠ s.curStart := by rw [hws]; exact htr
      have hcur : (swcStep s t c).1.curStart = fwWindow W t := by
        rw [swcStep_curStart_tr s t c htr', hws]
      have hprev : (swcStep s t c).1.prevStart = s.curStart :=
        swcStep_prevStart_tr s t c htr'
      have hlt : s.curStart < fwWindow W t :=
        lt_of_le_of_ne (hlo (t, c) (List.mem_cons_self _ _)) (Ne.symm htr)
      have ih' := ih (swcStep s t c).1 (by rw [hwsz, hws])
        (by rw [hcur]; exact fwWindow_dvd W t)
        (by
          intro q hq
          rw [hcur]
          exact fwWindow_mono W hW (hmono q hq))
        hsorted'
      refine ⟨ih'.1, ?_, ?_⟩
      · intro h
        exfalso
        rw [if_pos htr] at h
        omega
      · intro _
        rcases Nat.eq_zero_or_pos (swcRunCount (swcStep s t c).1 rest).2 with hz | hp
        · have hfix := ih'.2.1 hz
          rw [hfix.1, hfix.2, hcur, hprev]
          exact ⟨hdvd, hlt⟩
        · exact ih'.2.2 hp
    · have htr' : ¬fwWindow s.windowSize t ≠ s.curStart := by rw [hws]; exact htr
      have hcur : (swcStep s t c).1.curStart = s.curStart :=
        swcStep_curStart_keep s t c htr'
      have hprev : (swcStep s t c).1.prevStart = s.prevStart :=
        swcStep_prevStart_keep s t c htr'
      have ih' := ih (swcStep s t c).1 (by rw [hwsz, hws])
        (by rw [hcur]; exact hdvd)
        (by
          intro q hq
          rw [hcur]
          exact hlo q (List.mem_cons_of_mem _ hq))
        hsorted'
      refine ⟨ih'.1, ?_, ?_⟩
      · intro h
        rw [if_neg htr] at h
        have h0 : (swcRunCount (swcStep s t c).1 rest).2 = 0 := by omega
        have hfix := ih'.2.1 h0
        rw [hfix.1, hfix.2, hcur, hprev]
        exact ⟨rfl, rfl⟩
      · intro h
        rw [if_neg htr] at h
        exact ih'.2.2 (by omega)

/-- C3 (amended): for a SlidingWindowCounterLimiter driven by calls at
nondecreasing nonnegative clock readings, once at least two window
transitions have occurred the two stored window starts satisfy
previous.start < current.start with current.start - previous.start a
(positive) multiple of windowSizeMs — not necessarily equal to
windowSizeMs, since a transition after idle windows skips ahead. -/
theorem c3_swc_window_spacing (W : ℤ) (L : ℕ) (calls : List (ℤ × ℕ))
    (hW : 0 < W) (hsorted : List.Sorted (· ≤ ·) (calls.map Prod.fst))
    (hnn : ∀ p ∈ calls, 0 ≤ p.1)
    (htrans : 2 ≤ (swcRunCount (SWCState.init W L) calls).2) :
    (swcRunCount (SWCState.init W L) calls).1.prevStart <
      (swcRunCount (SWCState.init W L) calls).1.curStart ∧
    W ∣ ((swcRunCount (SWCState.init W L) calls).1.curStart -
      (swcRunCount (SWCState.init W L) calls).1.prevStart) := by
  have h := swc_spacing_inv W hW calls (SWCState.init W L) rfl (dvd_zero W)
    (fun p hp => fwWindow_nonneg W hW (hnn p hp)) hsorted
  have h1 := h.2.2 (by omega)
  exact ⟨h1.2, dvd_sub h.1 h1.1⟩

/-- The two-call run used against C3, computed in full: calls at t = 1500
and t = 5500 with a 1000 ms window are both transitions, ending with
current.start = 5000 and previous.start = 1000. -/
theorem swcRunCount_example :
    swcRunCount (SWCState.init 1000 10) [(1500, 1), (5500, 1)] =
      (⟨1000, 10, 5000, 1, 1000, 1⟩, 2) := by
  have h1 : swcStep (SWCState.init 1000 10) 1500 1 =
      ((⟨1000, 10, 1000, 1, 0, 0⟩ : SWCState),
       { allowed := true, limit := 10, remaining := 9, resetAt := 2000,
         retryAfter := none }) := by
    norm_num [swcStep, swcEstimate, fwWindow, SWCState.init, max_def,
      show Int.fdiv 1500 1000 = 1 from by decide]
  have h2 : swcStep (⟨1000, 10, 1000, 1, 0, 0⟩ : SWCState) 5500 1 =
      ((⟨1000, 10, 5000, 1, 1000, 1⟩ : SWCState),
       { allowed := true, limit := 10, remaining := 9, resetAt := 6000,
         retryAfter := none }) := by
    norm_num [swcStep, swcEstimate, fwWindow, max_def,
      show Int.fdiv 5500 1000 = 5 from by decide]
  rw [show ([(1500, 1), (5500, 1)] : List (ℤ × ℕ)) =
      (1500, 1) :: (5500, 1) :: [] from rfl, swcRunCount_cons, h1]
  rw [swcRunCount_cons, h2, swcRunCount_nil]
  norm_num [SWCState.init, fwWindow, show Int.fdiv 1500 1000 = 1 from by decide,
    show Int.fdiv 5500 1000 = 5 from by decide]

/-- C3 counterexample to the claim as stated: window size 1000 ms, unit
calls at t = 1500 and t = 5500; both calls are window transitions (two
transitions in total) yet current.start - previous.start = 5000 - 1000 =
4000 ≠ 1000, because the second transition skipped idle windows. -/
theorem c3_counterexample :
    (swcRunCount (SWCState.init 1000 10) [(1500, 1), (5500, 1)]).2 = 2 ∧
    ((swcRunCount (SWCState.init 1000 10) [(1500, 1), (5500, 1)]).1.curStart -
      (swcRunCount (SWCState.init 1000 10) [(1500, 1), (5500, 1)]).1.prevStart) ≠ 1000 := by
  rw [swcRunCount_example]
  norm_num

/-- Witness for c3_swc_window_spacing on the concrete two-transition run. -/
theorem c3_witness :
    (swcRunCount (SWCState.init 1000 10) [(1500, 1), (5500, 1)]).1.prevStart <
      (swcRunCount (SWCState.init 1000 10) [(1500, 1), (5500, 1)]).1.curStart ∧
    (1000 : ℤ) ∣ ((swcRunCount (SWCState.init 1000 10) [(1500, 1), (5500, 1)]).1.curStart -
      (swcRunCount (SWCState.init 1000 10) [(1500, 1), (5500, 1)]).1.prevStart) := by
  refine c3_swc_window_spacing 1000 10 [(1500, 1), (5500, 1)] (by norm_num) ?_ ?_ ?_
  · simp
  · intro p hp
    simp only [List.mem_cons, List.not_mem_nil, or_false] at hp
    rcases hp with h | h <;> (rw [h]; norm_num)
  · rw [swcRunCount_example]

/-! ## C6: capacity invariants of token bucket and leaky bucket -/

theorem tbStep_state (s : TBState) (t : ℤ) (c : ℕ) :
    (tbStep s t c).1 =
      if (c : ℚ) ≤ (tbRefill s t).tokens
      then { tbRefill s t with tokens := (tbRefill s t).tokens - (c : ℚ) }
      else tbRefill s t := by
  unfold tbStep
  dsimp only
  split <;> rfl

theorem tbRefill_lastRefill (s : TBState) (t : ℤ) : (tbRefill s t).lastRefill = t := rfl

theorem tbRefill_tokens_le (s : TBState) (t : ℤ) :
    (tbRefill s t).tokens ≤ s.capacity := min_le_left _ _

theorem tbRefill_tokens_nonneg (s : TBState) (t : ℤ)
    (hc : 0 ≤ s.capacity) (htok : 0 ≤ s.tokens) (hr : 0 ≤ s.refillRate)
    (ht : s.lastRefill ≤ t) : 0 ≤ (tbRefill s t).tokens := by
  unfold tbRefill
  dsimp only
  refine le_min hc ?_
  have hd : 0 ≤ ((t : ℚ) - (s.lastRefill : ℚ)) / 1000 * s.refillRate := by
    apply mul_nonneg _ hr
    apply div_nonneg _ (by norm_num)
    rw [sub_nonneg]
    exact_mod_cast ht
  linarith

theorem tb_capacity_inv (ops : List RLOp) :
    ∀ (s : TBState), 0 ≤ s.refillRate → 0 ≤ s.capacity →
      0 ≤ s.tokens → s.tokens ≤ s.capacity →
      (∀ op ∈ ops, s.lastRefill ≤ op.time) →
      List.Sorted (· ≤ ·) (ops.map RLOp.time) →
      0 ≤ (tbRunOps s ops).tokens ∧ (tbRunOps s ops).tokens ≤ s.capacity := by
  induction ops with
  | nil => intro s _ _ h0 h1 _ _; exact ⟨h0, h1⟩
  | cons op rest ih =>
    intro s hr hc h0 h1 hfuture hsorted
    have hmono : ∀ q ∈ rest, op.time ≤ q.time := by
      intro q hq
      have h := hsorted
      rw [List.map_cons, List.sorted_cons] at h
      exact h.1 q.time (List.mem_map_of_mem RLOp.time hq)
    have hsorted' : List.Sorted (· ≤ ·) (rest.map RLOp.time) := by
      rw [List.map_cons, List.sorted_cons] at hsorted
      exact hsorted.2
    cases op with
    | allow t c =>
      simp only [tbRunOps]
      have hstep := tbStep_state s t c
      have hlast : s.lastRefill ≤ t := hfuture (.allow t c) (List.mem_cons_self _ _)
      have hnn := tbRefill_tokens_nonneg s t hc h0 hr hlast
      have hle := tbRefill_tokens_le s t
      by_cases hadm : (c : ℚ) ≤ (tbRefill s t).tokens
      · rw [hstep, if_pos hadm]
        have h0' : (0 : ℚ) ≤ (tbRefill s t).tokens - (c : ℚ) := by linarith
        have h1' : (tbRefill s t).tokens - (c : ℚ) ≤ s.capacity := by
          have hcq : (0 : ℚ) ≤ (c : ℚ) := by positivity
          linarith
        exact ih { tbRefill s t with tokens := (tbRefill s t).tokens - (c : ℚ) }
          hr hc h0' h1'
          (fun q hq => by rw [RLOp.time] at *; exact hmono q hq) hsorted'
      · rw [hstep, if_neg hadm]
        exact ih (tbRefill s t) hr hc hnn hle
          (fun q hq => by rw [tbRefill_lastRefill]; exact hmono q hq) hsorted'
    | reset t =>
      simp only [tbRunOps]
      exact ih (tbReset s t) hr hc hc le_rfl
        (fun q hq => hmono q hq) hsorted'

theorem lbStep_state (s : LBState) (t : ℤ) (c : ℕ) :
    (lbStep s t c).1 =
      if (lbLeak s t).queue.length + c ≤ s.capacity
      then { lbLeak s t with queue := (lbLeak s t).queue ++ List.replicate c t }
      else lbLeak s t := by
  unfold lbStep
  dsimp only
  split <;> rfl

theorem lbLeak_length_le (s : LBState) (t : ℤ) :
    (lbLeak s t).queue.length ≤ s.queue.length := by
  unfold lbLeak
  dsimp only
  rw [List.length_drop]
  omega

theorem lb_capacity_inv (ops : List RLOp) :
    ∀ (s : LBState), s.queue.length ≤ s.capacity →
      (lbRunOps s ops).queue.length ≤ (lbRunOps s ops).capacity ∧
      (lbRunOps s ops).capacity = s.capacity := by
  induction ops with
  | nil => intro s h; exact ⟨h, rfl⟩
  | cons op rest ih =>
    intro s h
    cases op with
    | allow t c =>
      simp only [lbRunOps]
      have hstep := lbStep_state s t c
      by_cases hadm : (lbLeak s t).queue.length + c ≤ s.capacity
      · rw [hstep, if_pos hadm]
        refine ih _ ?_
        have hcap : (lbLeak s t).capacity = s.capacity := rfl
        dsimp only
        simp only [List.length_append, List.length_replicate, hcap]
        omega
      · rw [hstep, if_neg hadm]
        exact ih (lbLeak s t) ((lbLeak_length_le s t).trans h)
    | reset t =>
      simp only [lbRunOps]
      exact ih (lbReset s t) (by simp [lbReset])

/-- C6: over every sequence of allowRequest and reset operations with
nondecreasing clock readings, a token bucket built with nonnegative
capacity and refill rate keeps its token count within the interval from 0
to capacity, and a leaky bucket keeps its queue length at most capacity
(the length, a list length, is nonnegative by construction). -/
theorem c6_capacity_invariant :
    (∀ (cap rate : ℚ) (t0 : ℤ) (ops : List RLOp),
      0 ≤ cap → 0 ≤ rate →
      List.Sorted (· ≤ ·) (t0 :: ops.map RLOp.time) →
      0 ≤ (tbRunOps (TBState.init cap rate t0) ops).tokens ∧
      (tbRunOps (TBState.init cap rate t0) ops).tokens ≤ cap) ∧
    (∀ (cap : ℕ) (rate : ℚ) (t0 : ℤ) (ops : List RLOp),
      (lbRunOps (LBState.init cap rate t0) ops).queue.length ≤ cap) := by
  constructor
  · intro cap rate t0 ops hc hr hsorted
    rw [List.sorted_cons] at hsorted
    exact tb_capacity_inv ops (TBState.init cap rate t0) hr hc hc le_rfl
      (fun op hop => hsorted.1 op.time (List.mem_map_of_mem RLOp.time hop))
      hsorted.2
  · intro cap rate t0 ops
    have h := lb_capacity_inv ops (LBState.init cap rate t0) (by simp [LBState.init])
    calc (lbRunOps (LBState.init cap rate t0) ops).queue.length
        ≤ (lbRunOps (LBState.init cap rate t0) ops).capacity := h.1
      _ = cap := h.2

/-- Witness for c6_capacity_invariant: a concrete token-bucket run (spend
5 at t = 0, then 7 at t = 1000) and a concrete leaky-bucket run. -/
theorem c6_witness :
    (0 ≤ (tbRunOps (TBState.init 10 2 0) [.allow 0 5, .allow 1000 7]).tokens ∧
      (tbRunOps (TBState.init 10 2 0) [.allow 0 5, .allow 1000 7]).tokens ≤ 10) ∧
    (lbRunOps (LBState.init 3 1 0) [.allow 0 2, .allow 10 2]).queue.length ≤ 3 :=
  ⟨c6_capacity_invariant.1 10 2 0 [.allow 0 5, .allow 1000 7]
      (by norm_num) (by norm_num)
      (by simp [RLOp.time]),
   c6_capacity_invariant.2 3 1 0 [.allow 0 2, .allow 10 2]⟩

/-! ## C5: distributed counter atomicity -/

/-- Serial executions of RedisFixedWindowCounter.consume keep every
per-window counter within the limit: each increment is guarded by the
get-then-check of the same uninterrupted call. -/
theorem rfw_serial_inv (limit : ℕ) (W : ℤ) (calls : List (ℚ × ℕ)) :
    ∀ (store : ℤ → ℕ), (∀ k, store k ≤ limit) →
      ∀ k, rfwRunSerial limit W store calls k ≤ limit := by
  induction calls with
  | nil => intro store h k; exact h k
  | cons p rest ih =>
    obtain ⟨t, c⟩ := p
    intro store h k
    simp only [rfwRunSerial]
    refine ih _ ?_ k
    intro k'
    unfold rfwConsume
    dsimp only
    by_cases hadm : store (rfwWindowStart W t) + c ≤ limit
    · rw [if_pos hadm]
      dsimp only
      by_cases hk : k' = rfwWindowStart W t
      · rw [if_pos hk, hk]
        omega
      · rw [if_neg hk]
        exact h k'
    · rw [if_neg hadm]
      exact h k'

/-- C5 (amended, part proved): when consume() calls execute serially, the
fixed-window counter never records more than the limit in any window key,
starting from empty storage. -/
theorem c5_serialized_bound (limit : ℕ) (W : ℤ) (calls : List (ℚ × ℕ)) (k : ℤ) :
    rfwRunSerial limit W (fun _ => 0) calls k ≤ limit :=
  rfw_serial_inv limit W calls (fun _ => 0) (fun _ => Nat.zero_le _) k

/-- C5 counterexample to the claim as stated: RedisFixedWindowCounter
performs a plain GET followed by a separate INCRBY, so in the interleaving
where two concurrent callers (limit 1, 60 s window, both at t = 30 s) both
GET before either INCRBY, both observe count 0, both admit, and the window
counter ends at 2, past the limit 1. -/
theorem c5_counterexample :
    (rfwConsume2Interleaved 1 60 (fun _ => 0) 30 30 1 1).2.1 = true ∧
    (rfwConsume2Interleaved 1 60 (fun _ => 0) 30 30 1 1).2.2 = true ∧
    (rfwConsume2Interleaved 1 60 (fun _ => 0) 30 30 1 1).1 0 = 2 := by
  norm_num [rfwConsume2Interleaved, rfwWindowStart]

/-! ## Multi-tier helper lemmas -/

/-- The loop of a MultiTierLimiter call over members that all admit up to a
first rejector: consulted members keep their stepped states, the rejector
is stepped, the members after it are untouched, and its Decision comes out. -/
theorem mtGo_first_reject (t : ℤ) (c : ℕ) :
    ∀ (pre : List LimState) (m : LimState) (post : List LimState),
      (∀ s ∈ pre, (stepLim s t c).2.allowed = true) →
      (stepLim m t c).2.allowed = false →
      mtGo t c (pre ++ m :: post) =
        (pre.map (fun s => (stepLim s t c).1) ++ (stepLim m t c).1 :: post,
         pre.map (fun s => (stepLim s t c).2) ++ [(stepLim m t c).2],
         some (stepLim m t c).2) := by
  intro pre
  induction pre with
  | nil =>
    intro m post _ hm
    rw [List.nil_append, mtGo_cons, if_neg (by rw [hm]; exact Bool.false_ne_true)]
    simp
  | cons s pre' ih =>
    intro m post hpre hm
    rw [List.cons_append, mtGo_cons,
      if_pos (hpre s (List.mem_cons_self _ _)),
      ih m post (fun q hq => hpre q (List.mem_cons_of_mem _ hq)) hm]
    simp

/-- The loop when every member admits: all members are stepped and the
collected results are returned with no rejection. -/
theorem mtGo_all_admit (t : ℤ) (c : ℕ) :
    ∀ (ss : List LimState),
      (∀ s ∈ ss, (stepLim s t c).2.allowed = true) →
      mtGo t c ss =
        (ss.map (fun s => (stepLim s t c).1),
         ss.map (fun s => (stepLim s t c).2), none) := by
  intro ss
  induction ss with
  | nil => intro _; rfl
  | cons s ss' ih =>
    intro h
    rw [mtGo_cons, if_pos (h s (List.mem_cons_self _ _)),
      ih (fun q hq => h q (List.mem_cons_of_mem _ hq))]
    simp

theorem reduceMin_foldl_mem (l : List Decision) :
    ∀ (a : Decision),
      l.foldl (fun most current =>
        if current.remaining < most.remaining then current else most) a ∈ a :: l := by
  induction l with
  | nil => intro a; exact List.mem_singleton.mpr rfl
  | cons b l ih =>
    intro a
    have h := ih (if b.remaining < a.remaining then b else a)
    simp only [List.foldl_cons]
    rcases List.mem_cons.mp h with h1 | h1
    · rw [h1]
      split
      · exact List.mem_cons_of_mem _ (List.mem_cons_self _ _)
      · exact List.mem_cons_self _ _
    · exact List.mem_cons_of_mem _ (List.mem_cons_of_mem _ h1)

theorem reduceMin_foldl_le (l : List Decision) :
    ∀ (a : Decision),
      (l.foldl (fun most current =>
        if current.remaining < most.remaining then current else most) a).remaining ≤
          a.remaining ∧
      ∀ r ∈ l, (l.foldl (fun most current =>
        if current.remaining < most.remaining then current else most) a).remaining ≤
          r.remaining := by
  induction l with
  | nil => intro a; exact ⟨le_rfl, by simp⟩
  | cons b l ih =>
    intro a
    have h := ih (if b.remaining < a.remaining then b else a)
    simp only [List.foldl_cons]
    have hstep : (if b.remaining < a.remaining then b else a).remaining ≤ a.remaining ∧
        (if b.remaining < a.remaining then b else a).remaining ≤ b.remaining := by
      split
      · rename_i hlt
        exact ⟨le_of_lt hlt, le_rfl⟩
      · rename_i hlt
        exact ⟨le_rfl, le_of_not_lt hlt⟩
    refine ⟨h.1.trans hstep.1, ?_⟩
    intro r hr
    rcases List.mem_cons.mp hr with h1 | h1
    · rw [h1]
      exact h.1.trans hstep.2
    · exact h.2 r h1

theorem reduceMin_spec (l : List Decision) (h : l ≠ []) :
    ∃ d, reduceMinRemaining l = some d ∧ d ∈ l ∧
      ∀ r ∈ l, d.remaining ≤ r.remaining := by
  cases l with
  | nil => exact absurd rfl h
  | cons a l' =>
    refine ⟨_, rfl, ?_, ?_⟩
    · exact reduceMin_foldl_mem l' a
    · intro r hr
      rcases List.mem_cons.mp hr with h1 | h1
      · rw [h1]
        exact (reduceMin_foldl_le l' a).1
      · exact (reduceMin_foldl_le l' a).2 r h1

/-! ## C7: MultiTierLimiter evaluation order -/

/-- C7: a MultiTierLimiter call evaluates members in list order. If the
members before some rejector all admit and that member rejects, the
composite returns that member's Decision unchanged, the members before it
keep their stepped states, and the members after it are untouched (never
consulted). If every member admits (and the list is nonempty, as the
source's reduce over an empty array would throw), every member is stepped
and the returned Decision is a member result of minimal remaining. -/
theorem c7_multitier_evaluation (t : ℤ) (c : ℕ) :
    (∀ (pre : List LimState) (m : LimState) (post : List LimState),
      (∀ s ∈ pre, (stepLim s t c).2.allowed = true) →
      (stepLim m t c).2.allowed = false →
      mtStep (pre ++ m :: post) t c =
        (pre.map (fun s => (stepLim s t c).1) ++ (stepLim m t c).1 :: post,
         some (stepLim m t c).2)) ∧
    (∀ ss : List LimState, ss ≠ [] →
      (∀ s ∈ ss, (stepLim s t c).2.allowed = true) →
      (mtStep ss t c).1 = ss.map (fun s => (stepLim s t c).1) ∧
      ∃ d, (mtStep ss t c).2 = some d ∧
        d ∈ ss.map (fun s => (stepLim s t c).2) ∧
        ∀ r ∈ ss.map (fun s => (stepLim s t c).2), d.remaining ≤ r.remaining) := by
  constructor
  · intro pre m post hpre hm
    rw [mtStep_eq, mtGo_first_reject t c pre m post hpre hm]
  · intro ss hne hall
    rw [mtStep_eq, mtGo_all_admit t c ss hall]
    have hmapne : ss.map (fun s => (stepLim s t c).2) ≠ [] := by
      intro hx
      exact hne (List.map_eq_nil_iff.mp hx)
    obtain ⟨d, hd, hmem, hle⟩ := reduceMin_spec _ hmapne
    exact ⟨rfl, d, by rw [hd], hmem, hle⟩

/-- Witness for c7_multitier_evaluation: a concurrent limiter (cap 5) that
admits followed by a fixed window with limit 0 that rejects, with an
untouched member after it; and the all-admit case on two concurrent
limiters, where the returned Decision has the smallest remaining. -/
theorem c7_witness :
    (mtStep ([.cr ⟨5, 0⟩] ++ .fw ⟨1000, 0, 0, 0⟩ :: [.cr ⟨3, 0⟩]) 100 1 =
      ([.cr ⟨5, 0⟩].map (fun s => (stepLim s 100 1).1) ++
        (stepLim (.fw ⟨1000, 0, 0, 0⟩) 100 1).1 :: [.cr ⟨3, 0⟩],
       some (stepLim (.fw ⟨1000, 0, 0, 0⟩) 100 1).2)) ∧
    ((mtStep [.cr ⟨5, 0⟩, .cr ⟨3, 0⟩] 100 1).1 =
      ([.cr ⟨5, 0⟩, .cr ⟨3, 0⟩] : List LimState).map (fun s => (stepLim s 100 1).1) ∧
     ∃ d, (mtStep [.cr ⟨5, 0⟩, .cr ⟨3, 0⟩] 100 1).2 = some d ∧
       d ∈ ([.cr ⟨5, 0⟩, .cr ⟨3, 0⟩] : List LimState).map (fun s => (stepLim s 100 1).2) ∧
       ∀ r ∈ ([.cr ⟨5, 0⟩, .cr ⟨3, 0⟩] : List LimState).map (fun s => (stepLim s 100 1).2),
         d.remaining ≤ r.remaining) :=
  ⟨(c7_multitier_evaluation 100 1).1 [.cr ⟨5, 0⟩] (.fw ⟨1000, 0, 0, 0⟩) [.cr ⟨3, 0⟩]
      (by
        intro s hs
        rw [List.mem_singleton.mp hs]
        decide)
      (by decide),
   (c7_multitier_evaluation 100 1).2 [.cr ⟨5, 0⟩, .cr ⟨3, 0⟩] (by simp)
      (by
        intro s hs
        rcases List.mem_cons.mp hs with h | h
        · rw [h]; decide
        · rw [List.mem_singleton.mp h]; decide)⟩

/-! ## C2: multi-tier dominance -/

theorem mtStep_fst (ss : List LimState) (t : ℤ) (c : ℕ) :
    (mtStep ss t c).1 = (mtGo t c ss).1 := by
  rw [mtStep_eq]
  cases hx : (mtGo t c ss).2.2 <;> rfl

theorem mtGo_fst_cons (t : ℤ) (c : ℕ) (a : LimState) (rest : List LimState) :
    (mtGo t c (a :: rest)).1 =
      (stepLim a t c).1 ::
        (if (stepLim a t c).2.allowed then (mtGo t c rest).1 else rest) := by
  rw [mtGo_cons]
  by_cases h : (stepLim a t c).2.allowed <;> simp [h]

theorem mtStep_head (a : LimState) (rest : List LimState) (t : ℤ) (c : ℕ) :
    ∃ rest', (mtStep (a :: rest) t c).1 = (stepLim a t c).1 :: rest' := by
  rw [mtStep_fst, mtGo_fst_cons]
  exact ⟨_, rfl⟩

theorem mtStep_head_reject (a : LimState) (rest : List LimState) (t : ℤ) (c : ℕ)
    (h : (stepLim a t c).2.allowed = false) :
    (mtStep (a :: rest) t c).2 = some (stepLim a t c).2 := by
  rw [mtStep_eq, mtGo_cons, if_neg (by rw [h]; exact Bool.false_ne_true)]

/-- C2 (amended): a MultiTierLimiter rejects a call whenever its first
member, run alone on the same call sequence and costs, would reject that
call (the first member is consulted by every composite call, so its state
evolution matches the solo run). The corresponding property fails for
later members. -/
theorem c2_first_tier_dominance (calls : List (ℤ × ℕ)) :
    ∀ (a : LimState) (rest : List LimState) (i : ℕ) (d : Decision),
      (limRunDecisions a calls).get? i = some d → d.allowed = false →
      ∃ d', (mtRunDecisions (a :: rest) calls).get? i = some (some d') ∧
        d'.allowed = false := by
  induction calls with
  | nil =>
    intro a rest i d h _
    rw [limRunDecisions_nil] at h
    simp at h
  | cons p cs ih =>
    obtain ⟨t, c⟩ := p
    intro a rest i d hget hallow
    obtain ⟨rest', hrest'⟩ := mtStep_head a rest t c
    cases i with
    | zero =>
      rw [limRunDecisions_cons] at hget
      simp only [List.get?_cons_zero, Option.some.injEq] at hget
      rw [mtRunDecisions_cons]
      simp only [List.get?_cons_zero, Option.some.injEq]
      refine ⟨(stepLim a t c).2, ?_, ?_⟩
      · exact mtStep_head_reject a rest t c (by rw [hget]; exact hallow)
      · rw [hget]
        exact hallow
    | succ j =>
      rw [limRunDecisions_cons] at hget
      simp only [List.get?_cons_succ] at hget
      rw [mtRunDecisions_cons]
      simp only [List.get?_cons_succ]
      rw [hrest']
      exact ih (stepLim a t c).1 rest' j d hget hallow

/-- C2 counterexample to the claim as stated (for the second member): with
A a 1000 ms window of limit 1 and B a 2000 ms window of limit 2, on the
unit-cost call sequence at t = 0, 100, 200, 1100, B alone rejects the
fourth call (its window [0, 2000) is full after the first two calls), but
MultiTierLimiter([A, B]) admits it: A rejected the calls at t = 100 and
t = 200, so B was never consulted for them and retains budget. -/
theorem c2_counterexample :
    ((limRunDecisions (.fw ⟨2000, 2, 0, 0⟩)
        [(0, 1), (100, 1), (200, 1), (1100, 1)]).get? 3).map
      (fun d => d.allowed) = some false ∧
    ((mtRunDecisions [.fw ⟨1000, 1, 0, 0⟩, .fw ⟨2000, 2, 0, 0⟩]
        [(0, 1), (100, 1), (200, 1), (1100, 1)]).get? 3).map
      (fun o => o.map (fun d => d.allowed)) = some (some true) := by
  have e1 : stepLim (.fw ⟨1000, 1, 0, 0⟩) 0 1 =
      (.fw ⟨1000, 1, 0, 1⟩,
       { allowed := true, limit := 1, remaining := 0, resetAt := 1000,
         retryAfter := none }) := by
    rw [stepLim_fw]
    norm_num [fwStep, fwWindow, show Int.fdiv 0 1000 = 0 from by decide]
  have e3 : stepLim (.fw ⟨1000, 1, 0, 1⟩) 100 1 =
      (.fw ⟨1000, 1, 0, 1⟩,
       { allowed := false, limit := 1, remaining := 0, resetAt := 1000,
         retryAfter := some (9 / 10) }) := by
    rw [stepLim_fw]
    norm_num [fwStep, fwWindow, show Int.fdiv 100 1000 = 0 from by decide]
  have e4 : stepLim (.fw ⟨1000, 1, 0, 1⟩) 200 1 =
      (.fw ⟨1000, 1, 0, 1⟩,
       { allowed := false, limit := 1, remaining := 0, resetAt := 1000,
         retryAfter := some (4 / 5) }) := by
    rw [stepLim_fw]
    norm_num [fwStep, fwWindow, show Int.fdiv 200 1000 = 0 from by decide]
  have e5 : stepLim (.fw ⟨1000, 1, 0, 1⟩) 1100 1 =
      (.fw ⟨1000, 1, 1000, 1⟩,
       { allowed := true, limit := 1, remaining := 0, resetAt := 2000,
         retryAfter := none }) := by
    rw [stepLim_fw]
    norm_num [fwStep, fwWindow, show Int.fdiv 1100 1000 = 1 from by decide]
  have e2 : stepLim (.fw ⟨2000, 2, 0, 0⟩) 0 1 =
      (.fw ⟨2000, 2, 0, 1⟩,
       { allowed := true, limit := 2, remaining := 1, resetAt := 2000,
         retryAfter := none }) := by
    rw [stepLim_fw]
    norm_num [fwStep, fwWindow, show Int.fdiv 0 2000 = 0 from by decide]
  have b2 : stepLim (.fw ⟨2000, 2, 0, 1⟩) 100 1 =
      (.fw ⟨2000, 2, 0, 2⟩,
       { allowed := true, limit := 2, remaining := 0, resetAt := 2000,
         retryAfter := none }) := by
    rw [stepLim_fw]
    norm_num [fwStep, fwWindow, show Int.fdiv 100 2000 = 0 from by decide]
  have b3 : stepLim (.fw ⟨2000, 2, 0, 2⟩) 200 1 =
      (.fw ⟨2000, 2, 0, 2⟩,
       { allowed := false, limit := 2, remaining := 0, resetAt := 2000,
         retryAfter := some (9 / 5) }) := by
    rw [stepLim_fw]
    norm_num [fwStep, fwWindow, show Int.fdiv 200 2000 = 0 from by decide]
  have b4 : stepLim (.fw ⟨2000, 2, 0, 2⟩) 1100 1 =
      (.fw ⟨2000, 2, 0, 2⟩,
       { allowed := false, limit := 2, remaining := 0, resetAt := 2000,
         retryAfter := some (9 / 10) }) := by
    rw [stepLim_fw]
    norm_num [fwStep, fwWindow, show Int.fdiv 1100 2000 = 0 from by decide]
  have e6 : stepLim (.fw ⟨2000, 2, 0, 1⟩) 1100 1 =
      (.fw ⟨2000, 2, 0, 2⟩,
       { allowed := true, limit := 2, remaining := 0, resetAt := 2000,
         retryAfter := none }) := by
    rw [stepLim_fw]
    norm_num [fwStep, fwWindow, show Int.fdiv 1100 2000 = 0 from by decide]
  have m1 : mtStep [.fw ⟨1000, 1, 0, 0⟩, .fw ⟨2000, 2, 0, 0⟩] 0 1 =
      ([.fw ⟨1000, 1, 0, 1⟩, .fw ⟨2000, 2, 0, 1⟩],
       some { allowed := true, limit := 1, remaining := 0, resetAt := 1000,
              retryAfter := none }) := by
    rw [mtStep_eq, mtGo_all_admit 0 1 _ ?hall]
    case hall =>
      intro s hs
      rcases List.mem_cons.mp hs with h | h
      · rw [h, e1]
      · rw [List.mem_singleton.mp h, e2]
    simp only [List.map_cons, List.map_nil, e1, e2]
    norm_num [reduceMinRemaining]
  have m2 : mtStep [.fw ⟨1000, 1, 0, 1⟩, .fw ⟨2000, 2, 0, 1⟩] 100 1 =
      ([.fw ⟨1000, 1, 0, 1⟩, .fw ⟨2000, 2, 0, 1⟩],
       some { allowed := false, limit := 1, remaining := 0, resetAt := 1000,
              retryAfter := some (9 / 10) }) := by
    rw [mtStep_eq, mtGo_cons, if_neg (by rw [e3]; simp)]
    simp [e3]
  have m3 : mtStep [.fw ⟨1000, 1, 0, 1⟩, .fw ⟨2000, 2, 0, 1⟩] 200 1 =
      ([.fw ⟨1000, 1, 0, 1⟩, .fw ⟨2000, 2, 0, 1⟩],
       some { allowed := false, limit := 1, remaining := 0, resetAt := 1000,
              retryAfter := some (4 / 5) }) := by
    rw [mtStep_eq, mtGo_cons, if_neg (by rw [e4]; simp)]
    simp [e4]
  have m4 : mtStep [.fw ⟨1000, 1, 0, 1⟩, .fw ⟨2000, 2, 0, 1⟩] 1100 1 =
      ([.fw ⟨1000, 1, 1000, 1⟩, .fw ⟨2000, 2, 0, 2⟩],
       some { allowed := true, limit := 1, remaining := 0, resetAt := 2000,
              retryAfter := none }) := by
    rw [mtStep_eq, mtGo_all_admit 1100 1 _ ?hall]
    case hall =>
      intro s hs
      rcases List.mem_cons.mp hs with h | h
      · rw [h, e5]
      · rw [List.mem_singleton.mp h, e6]
    simp only [List.map_cons, List.map_nil, e5, e6]
    norm_num [reduceMinRemaining]
  have brun : limRunDecisions (.fw ⟨2000, 2, 0, 0⟩)
      [(0, 1), (100, 1), (200, 1), (1100, 1)] =
      [{ allowed := true, limit := 2, remaining := 1, resetAt := 2000, retryAfter := none },
       { allowed := true, limit := 2, remaining := 0, resetAt := 2000, retryAfter := none },
       { allowed := false, limit := 2, remaining := 0, resetAt := 2000, retryAfter := some (9 / 5) },
       { allowed := false, limit := 2, remaining := 0, resetAt := 2000, retryAfter := some (9 / 10) }] := by
    rw [show (([(0, 1), (100, 1), (200, 1), (1100, 1)]) : List (ℤ × ℕ)) =
        (0, 1) :: (100, 1) :: (200, 1) :: (1100, 1) :: [] from rfl]
    rw [limRunDecisions_cons, e2]
    dsimp only
    rw [limRunDecisions_cons, b2]
    dsimp only
    rw [limRunDecisions_cons, b3]
    dsimp only
    rw [limRunDecisions_cons, b4]
    dsimp only
    rw [limRunDecisions_nil]
  have mrun : mtRunDecisions [.fw ⟨1000, 1, 0, 0⟩, .fw ⟨2000, 2, 0, 0⟩]
      [(0, 1), (100, 1), (200, 1), (1100, 1)] =
      [some { allowed := true, limit := 1, remaining := 0, resetAt := 1000, retryAfter := none },
       some { allowed := false, limit := 1, remaining := 0, resetAt := 1000, retryAfter := some (9 / 10) },
       some { allowed := false, limit := 1, remaining := 0, resetAt := 1000, retryAfter := some (4 / 5) },
       some { allowed := true, limit := 1, remaining := 0, resetAt := 2000, retryAfter := none }] := by
    rw [show (([(0, 1), (100, 1), (200, 1), (1100, 1)]) : List (ℤ × ℕ)) =
        (0, 1) :: (100, 1) :: (200, 1) :: (1100, 1) :: [] from rfl]
    rw [mtRunDecisions_cons, m1]
    dsimp only
    rw [mtRunDecisions_cons, m2]
    dsimp only
    rw [mtRunDecisions_cons, m3]
    dsimp only
    rw [mtRunDecisions_cons, m4]
    dsimp only
    rw [mtRunDecisions_nil]
  rw [brun, mrun]
  exact ⟨rfl, rfl⟩

/-- Witness for c2_first_tier_dominance: the first member (window 1000 ms,
limit 1) rejects the second call of the run both alone and inside the
composite. -/
theorem c2_witness :
    ∃ d', (mtRunDecisions [.fw ⟨1000, 1, 0, 0⟩, .fw ⟨2000, 2, 0, 0⟩]
        [(0, 1), (100, 1)]).get? 1 = some (some d') ∧ d'.allowed = false := by
  have e1 : stepLim (.fw ⟨1000, 1, 0, 0⟩) 0 1 =
      (.fw ⟨1000, 1, 0, 1⟩,
       { allowed := true, limit := 1, remaining := 0, resetAt := 1000,
         retryAfter := none }) := by
    rw [stepLim_fw]
    norm_num [fwStep, fwWindow, show Int.fdiv 0 1000 = 0 from by decide]
  have e3 : stepLim (.fw ⟨1000, 1, 0, 1⟩) 100 1 =
      (.fw ⟨1000, 1, 0, 1⟩,
       { allowed := false, limit := 1, remaining := 0, resetAt := 1000,
         retryAfter := some (9 / 10) }) := by
    rw [stepLim_fw]
    norm_num [fwStep, fwWindow, show Int.fdiv 100 1000 = 0 from by decide]
  refine c2_first_tier_dominance [(0, 1), (100, 1)] (.fw ⟨1000, 1, 0, 0⟩)
    [.fw ⟨2000, 2, 0, 0⟩] 1
    { allowed := false, limit := 1, remaining := 0, resetAt := 1000,
      retryAfter := some (9 / 10) } ?_ rfl
  rw [show (([(0, 1), (100, 1)]) : List (ℤ × ℕ)) = (0, 1) :: (100, 1) :: [] from rfl]
  rw [limRunDecisions_cons, e1]
  dsimp only
  rw [limRunDecisions_cons, e3]
  rfl

/-! ## C10: no rollback of earlier tiers on a later rejection -/

/-- C10: when a MultiTierLimiter call is rejected by a later member, every
member before the rejector was stepped with an admitting call — its
counter, queue, tokens or active count was charged with the request's
cost — and the composite keeps those charged states (no rollback).
Concretely, for members A = fixed window (1000 ms, limit 1) and B = fixed
window (1000 ms, limit 0), the call at t = 0 is rejected by B while A's
count becomes 1, and A then rejects a call at t = 500 that it would have
admitted from its uncharged state: the budget consumption is permanent. -/
theorem c10_no_rollback :
    (∀ (t : ℤ) (c : ℕ) (pre : List LimState) (m : LimState) (post : List LimState),
      (∀ s ∈ pre, (stepLim s t c).2.allowed = true) →
      (stepLim m t c).2.allowed = false →
      (mtStep (pre ++ m :: post) t c).2.map (fun d => d.allowed) = some false ∧
      (mtStep (pre ++ m :: post) t c).1.take pre.length =
        pre.map (fun s => (stepLim s t c).1)) ∧
    ((mtStep [.fw ⟨1000, 1, 0, 0⟩, .fw ⟨1000, 0, 0, 0⟩] 0 1).2.map
        (fun d => d.allowed) = some false ∧
     (mtStep [.fw ⟨1000, 1, 0, 0⟩, .fw ⟨1000, 0, 0, 0⟩] 0 1).1.head? =
        some (.fw ⟨1000, 1, 0, 1⟩) ∧
     (stepLim (.fw ⟨1000, 1, 0, 1⟩) 500 1).2.allowed = false ∧
     (stepLim (.fw ⟨1000, 1, 0, 0⟩) 500 1).2.allowed = true) := by
  constructor
  · intro t c pre m post hpre hm
    rw [mtStep_eq, mtGo_first_reject t c pre m post hpre hm]
    constructor
    · simp only [Option.map_some']
      rw [hm]
    · dsimp only
      rw [show pre.length = (pre.map (fun s => (stepLim s t c).1)).length from
        (List.length_map pre _).symm, List.take_left]
  · refine ⟨?_, ?_, by decide, by decide⟩
    · have h := mtGo_first_reject 0 1 [.fw ⟨1000, 1, 0, 0⟩] (.fw ⟨1000, 0, 0, 0⟩) []
        (by intro s hs; rw [List.mem_singleton.mp hs]; decide) (by decide)
      rw [mtStep_eq, show ([.fw ⟨1000, 1, 0, 0⟩, .fw ⟨1000, 0, 0, 0⟩] : List LimState) =
        [.fw ⟨1000, 1, 0, 0⟩] ++ .fw ⟨1000, 0, 0, 0⟩ :: [] from rfl, h]
      decide
    · have h := mtGo_first_reject 0 1 [.fw ⟨1000, 1, 0, 0⟩] (.fw ⟨1000, 0, 0, 0⟩) []
        (by intro s hs; rw [List.mem_singleton.mp hs]; decide) (by decide)
      rw [mtStep_eq, show ([.fw ⟨1000, 1, 0, 0⟩, .fw ⟨1000, 0, 0, 0⟩] : List LimState) =
        [.fw ⟨1000, 1, 0, 0⟩] ++ .fw ⟨1000, 0, 0, 0⟩ :: [] from rfl, h]
      decide

/-- Witness for the universally quantified part of c10_no_rollback at a
concrete instance: one admitting member before a rejecting member. -/
theorem c10_witness :
    (mtStep ([.fw ⟨1000, 1, 0, 0⟩] ++ .fw ⟨1000, 0, 0, 0⟩ :: []) 0 1).2.map
        (fun d => d.allowed) = some false ∧
    (mtStep ([.fw ⟨1000, 1, 0, 0⟩] ++ .fw ⟨1000, 0, 0, 0⟩ :: []) 0 1).1.take 1 =
      ([.fw ⟨1000, 1, 0, 0⟩] : List LimState).map (fun s => (stepLim s 0 1).1) :=
  c10_no_rollback.1 0 1 [.fw ⟨1000, 1, 0, 0⟩] (.fw ⟨1000, 0, 0, 0⟩) []
    (by intro s hs; rw [List.mem_singleton.mp hs]; decide) (by decide)

/-! ## C1: sliding-window log exactness -/

theorem swlAdmitted_nil (s : SWLState) : swlAdmitted s [] = [] := rfl

theorem swlAdmitted_cons (s : SWLState) (t : ℤ) (c : ℕ) (rest : List (ℤ × ℕ)) :
    swlAdmitted s ((t, c) :: rest) =
      (if (swlStep s t c).2.allowed then List.replicate c t else []) ++
        swlAdmitted (swlStep s t c).1 rest := rfl

theorem swlRemoveOld_requests (W : ℤ) (L : ℕ) (reqs : List ℤ) (t : ℤ) :
    (swlRemoveOld (⟨W, L, reqs⟩ : SWLState) t).requests =
      reqs.dropWhile (fun x => decide (x ≤ t - W)) := rfl

theorem swlStep_admit (W : ℤ) (L : ℕ) (reqs : List ℤ) (t : ℤ) (c : ℕ)
    (h : (swlRemoveOld (⟨W, L, reqs⟩ : SWLState) t).requests.length + c ≤ L) :
    (swlStep ⟨W, L, reqs⟩ t c).1 =
      ⟨W, L, (swlRemoveOld (⟨W, L, reqs⟩ : SWLState) t).requests ++ List.replicate c t⟩ ∧
    (swlStep ⟨W, L, reqs⟩ t c).2.allowed = true := by
  unfold swlStep
  dsimp only
  rw [if_pos h]
  exact ⟨rfl, rfl⟩

theorem swlStep_reject (W : ℤ) (L : ℕ) (reqs : List ℤ) (t : ℤ) (c : ℕ)
    (h : ¬((swlRemoveOld (⟨W, L, reqs⟩ : SWLState) t).requests.length + c ≤ L)) :
    (swlStep ⟨W, L, reqs⟩ t c).1 =
      ⟨W, L, (swlRemoveOld (⟨W, L, reqs⟩ : SWLState) t).requests⟩ ∧
    (swlStep ⟨W, L, reqs⟩ t c).2.allowed = false := by
  unfold swlStep
  dsimp only
  rw [if_neg h]
  cases hh : (swlRemoveOld (⟨W, L, reqs⟩ : SWLState) t).requests.head? <;>
    exact ⟨rfl, rfl⟩

/-- Every timestamp admitted over a run is the time of one of its calls. -/
theorem swlAdmitted_mem_times (calls : List (ℤ × ℕ)) :
    ∀ (s : SWLState) (x : ℤ), x ∈ swlAdmitted s calls → x ∈ calls.map Prod.fst := by
  induction calls with
  | nil =>
    intro s x hx
    rw [swlAdmitted_nil] at hx
    simp at hx
  | cons p cs ih =>
    obtain ⟨t, c⟩ := p
    intro s x hx
    rw [swlAdmitted_cons] at hx
    rw [List.map_cons]
    rcases List.mem_append.mp hx with h | h
    · split at h
      · exact (List.eq_of_mem_replicate h) ▸ List.mem_cons_self _ _
      · simp at h
    · exact List.mem_cons_of_mem _ (ih _ x h)

theorem countWindow_append (a W : ℤ) (l1 l2 : List ℤ) :
    countWindow a W (l1 ++ l2) = countWindow a W l1 + countWindow a W l2 :=
  List.countP_append _ _ _

theorem countWindow_le_length (a W : ℤ) (l : List ℤ) :
    countWindow a W l ≤ l.length :=
  List.countP_le_length _

theorem countWindow_eq_zero (a W : ℤ) (l : List ℤ)
    (h : ∀ x ∈ l, x ≤ a ∨ a + W < x) : countWindow a W l = 0 := by
  refine List.countP_eq_zero.mpr ?_
  intro x hx
  have hx' := h x hx
  simp only [Bool.and_eq_true, decide_eq_true_eq, not_and, not_le]
  intro h1
  rcases hx' with h2 | h2
  · omega
  · omega

/-- The pruning at a call whose time lies at or before the right edge of
the interval never removes an interval timestamp: dropped entries are at
or below t - W ≤ a. -/
theorem countWindow_prune (a W : ℤ) (reqs : List ℤ) (t : ℤ) (hta : t ≤ a + W) :
    countWindow a W reqs =
      countWindow a W (reqs.dropWhile (fun x => decide (x ≤ t - W))) := by
  conv_lhs => rw [← List.takeWhile_append_dropWhile (fun x => decide (x ≤ t - W)) reqs]
  rw [countWindow_append]
  have hz : countWindow a W (reqs.takeWhile (fun x => decide (x ≤ t - W))) = 0 := by
    refine countWindow_eq_zero a W _ ?_
    intro x hx
    have := List.mem_takeWhile_imp hx
    simp only [decide_eq_true_eq] at this
    left
    omega
  omega

/-- The inductive bound: processing any call list from a log of length at
most the limit, the timestamps already in the log that lie in the
interval just after a plus all newly admitted timestamps in that interval
never exceed the limit (the call times must be nondecreasing). -/
theorem swl_run_bound (W : ℤ) (L : ℕ) (a : ℤ) :
    ∀ (calls : List (ℤ × ℕ)) (reqs : List ℤ),
      List.Sorted (· ≤ ·) (calls.map Prod.fst) →
      reqs.length ≤ L →
      countWindow a W reqs +
        countWindow a W (swlAdmitted ⟨W, L, reqs⟩ calls) ≤ L := by
  intro calls
  induction calls with
  | nil =>
    intro reqs _ hlen
    rw [swlAdmitted_nil]
    have h1 := countWindow_le_length a W reqs
    have h0 : countWindow a W ([] : List ℤ) = 0 := rfl
    omega
  | cons p cs ih =>
    obtain ⟨t, c⟩ := p
    intro reqs hsorted hlen
    have hmono : ∀ q ∈ cs, t ≤ q.1 := by
      intro q hq
      have h := hsorted
      rw [List.map_cons, List.sorted_cons] at h
      exact h.1 q.1 (List.mem_map_of_mem Prod.fst hq)
    have hsorted' : List.Sorted (· ≤ ·) (cs.map Prod.fst) := by
      rw [List.map_cons, List.sorted_cons] at hsorted
      exact hsorted.2
    have hplen : (swlRemoveOld (⟨W, L, reqs⟩ : SWLState) t).requests.length ≤ reqs.length := by
      rw [swlRemoveOld_requests]
      exact (List.dropWhile_sublist _).length_le
    rw [swlAdmitted_cons]
    by_cases hadm : (swlRemoveOld (⟨W, L, reqs⟩ : SWLState) t).requests.length + c ≤ L
    · obtain ⟨hst, hall⟩ := swlStep_admit W L reqs t c hadm
      rw [hall, if_pos rfl, hst, countWindow_append]
      by_cases hta : t ≤ a + W
      · have hprune : countWindow a W reqs =
            countWindow a W (swlRemoveOld (⟨W, L, reqs⟩ : SWLState) t).requests := by
          rw [swlRemoveOld_requests]
          exact countWindow_prune a W reqs t hta
        have ih' := ih ((swlRemoveOld (⟨W, L, reqs⟩ : SWLState) t).requests ++
            List.replicate c t) hsorted'
          (by simp only [List.length_append, List.length_replicate]; omega)
        rw [countWindow_append] at ih'
        omega
      · have hz1 : countWindow a W (List.replicate c t) = 0 := by
          refine countWindow_eq_zero a W _ ?_
          intro x hx
          rw [List.eq_of_mem_replicate hx]
          right
          omega
        have hz2 : countWindow a W
            (swlAdmitted ⟨W, L, (swlRemoveOld (⟨W, L, reqs⟩ : SWLState) t).requests ++
              List.replicate c t⟩ cs) = 0 := by
          refine countWindow_eq_zero a W _ ?_
          intro x hx
          have hx1 := swlAdmitted_mem_times cs _ x hx
          obtain ⟨q, hq, hqx⟩ := List.mem_map.mp hx1
          right
          have := hmono q hq
          omega
        have := countWindow_le_length a W reqs
        omega
    · obtain ⟨hst, hall⟩ := swlStep_reject W L reqs t c hadm
      rw [hall]
      simp only [Bool.false_eq_true, if_false, List.nil_append]
      rw [hst]
      by_cases hta : t ≤ a + W
      · have hprune : countWindow a W reqs =
            countWindow a W (swlRemoveOld (⟨W, L, reqs⟩ : SWLState) t).requests := by
          rw [swlRemoveOld_requests]
          exact countWindow_prune a W reqs t hta
        have ih' := ih (swlRemoveOld (⟨W, L, reqs⟩ : SWLState) t).requests hsorted'
          (by omega)
        omega
      · have hz2 : countWindow a W
            (swlAdmitted ⟨W, L, (swlRemoveOld (⟨W, L, reqs⟩ : SWLState) t).requests⟩ cs) = 0 := by
          refine countWindow_eq_zero a W _ ?_
          intro x hx
          have hx1 := swlAdmitted_mem_times cs _ x hx
          obtain ⟨q, hq, hqx⟩ := List.mem_map.mp hx1
          right
          have := hmono q hq
          omega
        have := countWindow_le_length a W reqs
        omega

/-- C1: for a SlidingWindowLogLimiter with window W ms and limit L, over
any sequence of allowRequest calls at nondecreasing clock times, the
number of admitted timestamps that fall within any sliding half-open
interval of length W (from a exclusive to a + W inclusive — the window
convention the pruning cutoff `t <= now - W` induces) never exceeds L. -/
theorem c1_sliding_log_exactness (W : ℤ) (L : ℕ) (calls : List (ℤ × ℕ)) (a : ℤ)
    (hsorted : List.Sorted (· ≤ ·) (calls.map Prod.fst)) :
    countWindow a W (swlAdmitted (SWLState.init W L) calls) ≤ L := by
  have h := swl_run_bound W L a calls [] hsorted (by simp)
  have h0 : countWindow a W ([] : List ℤ) = 0 := rfl
  rw [SWLState.init]
  omega

/-- Witness for c1_sliding_log_exactness: three calls at t = 0, 500, 900
(total cost 3) against window 1000 ms, limit 2, interval (0, 1000]. -/
theorem c1_witness :
    countWindow 0 1000 (swlAdmitted (SWLState.init 1000 2) [(0, 1), (500, 1), (900, 2)]) ≤ 2 :=
  c1_sliding_log_exactness 1000 2 [(0, 1), (500, 1), (900, 2)] 0 (by simp)
